import Mathlib

/-!
Shallow embedding of `gui.py` (repository `bqio/feth-text`), a PyQt CSV
localization editor.  The GUI-independent core is embedded as follows:

* `Row` / `TableModel` embed `CSVTableModel` (`gui.py` lines 109-172).
  Python rows are mutable list objects shared between `original_data` and
  `filtered_data`; we model the heap explicitly: `store` maps an object
  identity (a `Nat` reference) to the current `Row` value, and the two data
  lists hold references, exactly as the Python attributes hold references
  to shared mutable list objects.
* `loaderRun` embeds the pure part of `CSVLoaderThread.run` (lines 101-106),
  after `csv.reader` has produced the list of rows.
* `parseGlossaryLine` / `get_glossary` embed `get_glossary` (lines 47-57),
  including the exact backtracking semantics of the regular expression
  `- (.*?) - \*{0,2}(.*?)\*{0,2}$`.
* `highlightLoop` / `highlightBlock` / `scan` embed `GlossaryHighlighter`
  (lines 60-91); the Qt primitive `QRegExp.indexIn` on an `re.escape`d
  literal pattern is modelled by `indexInFrom` as a case-insensitive
  literal search.  The Python `while` loop can fail to make progress (an
  empty pattern matches with length 0), which we model with fuel: `none`
  means the loop never terminates.
* `serializeRows` / `parseCsv` embed `CSVEditor.save_csv` (lines 442-455)
  together with Python's `csv` writer/reader restricted to fields that
  contain no delimiter-special character (no comma, double quote, CR, LF),
  exactly the fields for which `csv.writer` emits the field verbatim.
* `roundNat` models CPython binary64 arithmetic (correctly rounded
  operations, round to nearest, ties to even) for nonnegative values below
  `2 ^ 53`, which covers every value in the percent computation of `stats`
  (lines 168-172).
* `EditorState` / `step` embed the `can_save` ("dirty") flag handling of
  `CSVEditor` (lines 261-475).

Python's `str.lower` and `str.strip` are modelled per character
(`strLower`, `pyStrip`); Python's substring operator `a in b` is modelled
by `strIn`.
-/

/-- One CSV row: the Python 4-element list `[row[0], row[1], row[2], row[3]]`
(index, type, source text, translated text). -/
structure Row where
  idx : String
  ftype : String
  source : String
  translation : String
  deriving DecidableEq, Inhabited

/-- The `HEADERS` constant, `gui.py` line 43. -/
def HEADERS : List String := ["Index", "Type", "Source", "Translate"]

/-- The `RAW_HEADERS` constant, `gui.py` line 44. -/
def RAW_HEADERS : List String :=
  ["file_index", "file_type", "source_language", "destination_language"]

/-- The pure content of `CSVLoaderThread.run` (`gui.py` lines 101-106) after
`csv.reader` has parsed the file into `data`: the method unconditionally
drops the first row (`rows = data[1:]`) and emits `(HEADERS, rows)`.  There
is no validation of any kind in the source. -/
def loaderRun (data : List (List String)) : List String × List (List String) :=
  (HEADERS, data.drop 1)

/-- Python `str.lower`, per-character lowering. -/
def strLower (s : String) : String := String.mk (s.toList.map Char.toLower)

/-- Python's substring test `a in b` on strings: `a` occurs contiguously in
`b`. -/
def strIn (a b : String) : Bool :=
  (List.range (b.toList.length + 1)).any (fun i => a.toList.isPrefixOf (b.toList.drop i))

/-- State of a `CSVTableModel` (`gui.py` lines 109-114). -/
structure TableModel where
  store : List Row
  original_data : List Nat
  filtered_data : List Nat
  deriving DecidableEq

/-- Constructor `CSVTableModel.__init__`: `original_data = data`, `filtered_data = data`
(the same row objects). -/
def TableModel.init (rows : List Row) : TableModel :=
  { store := rows
    original_data := List.range rows.length
    filtered_data := List.range rows.length }

/-- Dereference a row object. -/
def rowAt (m : TableModel) (ref : Nat) : Row := m.store.getD ref default

/-- The `match` closure inside `CSVTableModel.apply_filter` (`gui.py` lines
152-162); its filter arguments are already lowercased by the caller. -/
def matchRow (text_filter file_type_filter : String) (show_untranslated : Bool)
    (r : Row) : Bool :=
  let file_type := strLower r.ftype
  let source := strLower r.source
  let dest := strLower r.translation
  let untranslated := dest == ""
  (!show_untranslated || untranslated)
    && (strIn text_filter source || strIn text_filter dest)
    && strIn file_type_filter file_type

/-- Method `CSVTableModel.apply_filter` (`gui.py` lines 146-166): lowercases both
filters, then rebuilds `filtered_data` as the sublist of `original_data`
whose rows match. -/
def apply_filter (m : TableModel) (text_filter file_type_filter : String)
    (show_untranslated : Bool) : TableModel :=
  { m with
    filtered_data :=
      m.original_data.filter (fun ref =>
        matchRow (strLower text_filter) (strLower file_type_filter)
          show_untranslated (rowAt m ref)) }

/-- Method `CSVTableModel.set_translation` (`gui.py` lines 140-144):

    index_in_original = self.original_data.index(self.filtered_data[row])
    self.original_data[index_in_original][3] = new_value
    self.filtered_data[row][3] = new_value

`list.index` searches by value equality (`==`), so `index_in_original` is
the position of the first row object of `original_data` whose value equals
the row displayed at `row`; both that object and the displayed object get
their translation field overwritten. -/
def set_translation (m : TableModel) (row : Nat) (new_value : String) : TableModel :=
  let rref := m.filtered_data.getD row 0
  let rval := rowAt m rref
  let index_in_original := m.original_data.findIdx (fun o => rowAt m o == rval)
  let oref := m.original_data.getD index_in_original 0
  let store1 := m.store.set oref
    { m.store.getD oref default with translation := new_value }
  let store2 := store1.set rref
    { store1.getD rref default with translation := new_value }
  { m with store := store2 }

/-- Smallest scaling exponent `k` (found by fuelled search, starting at `k`)
such that `2 ^ 52 * b ≤ a * 2 ^ k`, i.e. such that the rational `a / b`
scaled by `2 ^ k` reaches the binary64 mantissa range `[2 ^ 52, 2 ^ 53)`. -/
def scaleUp (a b : ℕ) : ℕ → ℕ → ℕ
  | 0, k => k
  | fuel + 1, k => if 2 ^ 52 * b ≤ a * 2 ^ k then k else scaleUp a b fuel (k + 1)

/-- A nonnegative binary64 value, represented exactly as `num / 2 ^ exp`. -/
structure F64 where
  num : ℕ
  exp : ℕ
  deriving DecidableEq

/-- The exact rational `a / b` rounded to binary64 (round to nearest, ties
to even), for `0 ≤ a / b < 2 ^ 53` — the range covering every value of the
`stats` percent computation.  CPython's int true division and float
multiplication are correctly rounded, so both are instances of this. -/
def roundNat (a b : ℕ) : F64 :=
  if a = 0 ∨ b = 0 then ⟨0, 0⟩
  else
    let k := scaleUp a b (b + 53) 0
    let n := a * 2 ^ k / b
    let r := a * 2 ^ k % b
    let n' := if 2 * r < b then n else if b < 2 * r then n + 1
      else if n % 2 = 0 then n else n + 1
    ⟨n', k⟩

/-- The percent computation of `CSVTableModel.stats` (`gui.py` line 171):
`int((total - untranslated) / total * 100) if total > 0 else 0`.
`(total - untranslated) / total` is a correctly rounded binary64 quotient
`d1`; `d1 * 100` is a correctly rounded binary64 product; `int` truncates
(= floors, the value being nonnegative). -/
def pythonPercent (total untranslated : ℕ) : ℕ :=
  if 0 < total then
    let d1 := roundNat (total - untranslated) total
    let d2 := roundNat (d1.num * 100) (2 ^ d1.exp)
    d2.num / 2 ^ d2.exp
  else 0

/-- Method `CSVTableModel.stats` (`gui.py` lines 168-172): totals over
`original_data` (never `filtered_data`). -/
def stats (m : TableModel) : ℕ × ℕ × ℕ :=
  let total := m.original_data.length
  let untranslated :=
    (m.original_data.filter (fun o => (rowAt m o).translation == "")).length
  (total, untranslated, pythonPercent total untranslated)

/-- Python `str.strip`: remove leading and trailing whitespace (ASCII
whitespace suffices for this repository's data). -/
def pyStrip (s : String) : String :=
  String.mk (((s.toList.dropWhile isWhite).reverse.dropWhile isWhite).reverse)
where
  isWhite (c : Char) : Bool := c = ' ' || c = '\t' || c = '\n' || c = '\r'

/-- Leftmost split of a character list at the glossary separator `" - "`:
`splitFirstSep l = some (a, b)` iff `l = a ++ ' ' :: '-' :: ' ' :: b` with
`a` shortest.  This is the behaviour of the lazy group in the pattern
`- (.*?) - ...`: the first group is everything up to the first `" - "`. -/
def splitFirstSep : List Char → Option (List Char × List Char)
  | [] => none
  | c :: rest =>
    if c = ' ' ∧ rest.take 2 = ['-', ' '] then some ([], rest.drop 2)
    else (splitFirstSep rest).map (fun p => (c :: p.1, p.2))

/-- The effect of `\*{0,2}(.*?)\*{0,2}$` on the text after the separator:
the greedy leading `\*{0,2}` consumes `min 2` of the leading asterisks (the
rest of the pattern matches any remainder, so no backtracking occurs), and
the lazy middle group is shortest, so the trailing `\*{0,2}$` consumes
`min 2` of the remaining trailing asterisks. -/
def stripEmph (r : List Char) : List Char :=
  let s := r.drop (min 2 (r.takeWhile (· = '*')).length)
  (s.reverse.drop (min 2 (s.reverse.takeWhile (· = '*')).length)).reverse

/-- One line of `get_glossary` (`gui.py` lines 52-56): match the (already
stripped) line against `- (.*?) - \*{0,2}(.*?)\*{0,2}$` anchored at the
start; on a match, the pair `(en_term, ru_term)` of the two groups. -/
def parseGlossaryLine (line : String) : Option (String × String) :=
  match line.toList with
  | '-' :: ' ' :: rest =>
    match splitFirstSep rest with
    | some p => some (String.mk p.1, String.mk (stripEmph p.2))
    | none => none
  | _ => none

/-- Function `get_glossary` (`gui.py` lines 47-57) applied to the lines of the
glossary document: strip each line, keep the lines matching the pattern, in
file order.  (The surrounding `open` can only fail wholesale when the file
is unreadable; the per-line processing never fails.) -/
def get_glossary (lines : List String) : List (String × String) :=
  lines.filterMap (fun l => parseGlossaryLine (pyStrip l))

/-- Case-insensitive literal match of `pat` at position `i` of `text`: the
semantics of Qt's `QRegExp` on the `re.escape`d pattern built in
`GlossaryHighlighter.__init__` (`gui.py` lines 73-77). -/
def ciMatchesAt (pat text : List Char) (i : ℕ) : Bool :=
  (pat.map Char.toLower).isPrefixOf ((text.drop i).map Char.toLower)

/-- Qt `QRegExp.indexIn(text, start)` for a literal case-insensitive pattern:
the first position `≥ start` where the pattern matches (`none` = Qt's -1).
An empty pattern matches at every position up to `text.length`. -/
def indexInFrom (pat text : List Char) (start : ℕ) : Option ℕ :=
  (List.range (text.length + 1)).find? (fun i => start ≤ i && ciMatchesAt pat text i)

/-- The `while index >= 0` loop of `GlossaryHighlighter.highlightBlock`
(`gui.py` lines 81-86) for one rule: repeatedly search from `start`, add
the term to `found_terms`, and continue from `index + matchedLength`.  For
an empty pattern `matchedLength` is `0` and the loop makes no progress, so
it never terminates; the fuel models this, `none` meaning divergence. -/
def highlightLoop (term : String) (pat text : List Char) :
    ℕ → ℕ → Finset String → Option (Finset String)
  | 0, _, _ => none
  | fuel + 1, start, acc =>
    match indexInFrom pat text start with
    | none => some acc
    | some i => highlightLoop term pat text fuel (i + pat.length) (insert term acc)

/-- Method `highlightBlock` over all rules (in glossary order), starting from the
cleared `found_terms` set of `rehighlight` (`gui.py` lines 79-91). -/
def highlightBlock (glossary : List (String × String)) (text : List Char) :
    Option (Finset String) :=
  glossary.foldlM
    (fun acc p => highlightLoop p.1 p.1.toList text (text.length + 2) 0 acc) ∅

/-- The set of glossary terms reported for `text` by a full rehighlight:
`found_terms` after `highlightBlock` ran on `text` (`none` = the Python
loop diverges and no term set is ever reported). -/
def scan (glossary : List (String × String)) (text : String) : Option (Finset String) :=
  highlightBlock glossary text.toList

/-- Split a character list at every occurrence of the character `c`. -/
def splitOnChar (c : Char) : List Char → List (List Char)
  | [] => [[]]
  | x :: xs =>
    match splitOnChar c xs with
    | [] => [[]]
    | y :: ys => if x = c then [] :: y :: ys else (x :: y) :: ys

/-- Join fields with a separator, as `csv.writer` does for fields that need
no quoting. -/
def joinSep (sep : List Char) : List (List Char) → List Char
  | [] => []
  | [x] => x
  | x :: y :: ys => x ++ sep ++ joinSep sep (y :: ys)

/-- One output line of `csv.writer`: the fields joined by `,` plus the
`\r\n` terminator (the writer's default `lineterminator`). -/
def writeRow (r : List String) : List Char :=
  joinSep [','] (r.map String.toList) ++ ['\r', '\n']

/-- Method `CSVEditor.save_csv` (`gui.py` lines 447-451): one header row
`RAW_HEADERS`, then every row of `original_data`, through `csv.writer`.
This models the writer for fields without delimiter-special characters
(such fields are written verbatim, unquoted). -/
def serializeRows (rows : List (List String)) : String :=
  String.mk (((RAW_HEADERS :: rows).map writeRow).flatten)

/-- Drop the final empty chunk produced by splitting content that ends with
a line terminator (a reader yields no row for the trailing empty piece). -/
def dropFinalEmpty : List (List Char) → List (List Char)
  | [] => []
  | [[]] => []
  | x :: xs => x :: dropFinalEmpty xs

/-- Drop a single trailing `'\r'` (CRLF handling of the reader model). -/
def stripCR (l : List Char) : List Char :=
  match l.reverse with
  | '\r' :: rest => rest.reverse
  | _ => l

/-- Python `csv.reader` on content whose fields contain no delimiter-special
characters: split into lines, drop the trailing empty piece, split each
line at commas. -/
def parseCsv (s : String) : List (List String) :=
  (dropFinalEmpty (splitOnChar '\n' s.toList)).map
    (fun l => (splitOnChar ',' (stripCR l)).map String.mk)

/-- A field with no delimiter-special character: no comma, double quote,
CR or LF.  `csv.writer` emits exactly such fields verbatim. -/
def plainStr (s : String) : Bool :=
  s.toList.all (fun c => !(c = ',' || c = '"' || c = '\r' || c = '\n'))

/-- The `CSVEditor` state relevant to edit tracking (`gui.py` lines
261-475): the dirty flag `can_save`, the loaded model, the current file
path and the three filter widgets' values. -/
structure EditorState where
  can_save : Bool
  model : Option TableModel
  current_file : Option String
  search_text : String
  type_filter : String
  show_untranslated : Bool
  deriving DecidableEq

/-- Method `CSVEditor.apply_filter` (`gui.py` lines 406-417): no-op without a
model; otherwise the `"ALL"` combo entry is mapped to the empty filter and
the model filter is re-applied from the widgets' current values. -/
def uiApplyFilter (s : EditorState) : EditorState :=
  match s.model with
  | none => s
  | some m =>
    let filter_type := if s.type_filter = "ALL" then "" else s.type_filter
    { s with model := some (apply_filter m s.search_text filter_type s.show_untranslated) }

/-- Events of the editor: completion of a background CSV load
(`on_csv_loaded`), the edit dialog closing accepted or rejected
(`edit_translation`), a save request (`save_csv`, with the distinction
between a completed write and an `IOError` escaping before `can_save` is
cleared), and the three filter widgets changing. -/
inductive EditorEvent where
  | csvLoaded (path : String) (rows : List Row)
  | editAccepted (row : ℕ) (text : String)
  | editRejected
  | saveRequested
  | saveFailed
  | searchChanged (t : String)
  | typeChanged (t : String)
  | untranslatedToggled (b : Bool)
  deriving DecidableEq

/-- One editor transition:

* `csvLoaded` (`on_csv_loaded`, lines 379-397): fresh model, combo reset to
  `"ALL"`, filter applied, `can_save = False`.
* `editAccepted` (`edit_translation`, lines 427-440): only with a model;
  commits via `set_translation` and sets `can_save = True`.
* `editRejected`: dialog cancelled, nothing happens.
* `saveRequested` (`save_csv`, lines 442-455): with a model and a current
  file the rows are written and `can_save = False`; otherwise the method
  returns early and the flag is untouched.
* `saveFailed`: an `IOError` propagates out of `save_csv` before
  `can_save = False` is reached; the flag is untouched.
* the three filter events re-apply the filter and touch nothing else. -/
def step (s : EditorState) : EditorEvent → EditorState
  | .csvLoaded path rows =>
    uiApplyFilter { s with
      model := some (TableModel.init rows)
      current_file := some path
      type_filter := "ALL"
      can_save := false }
  | .editAccepted row text =>
    match s.model with
    | none => s
    | some m => { s with model := some (set_translation m row text), can_save := true }
  | .editRejected => s
  | .saveRequested =>
    match s.model, s.current_file with
    | some _, some _ => { s with can_save := false }
    | _, _ => s
  | .saveFailed => s
  | .searchChanged t => uiApplyFilter { s with search_text := t }
  | .typeChanged t => uiApplyFilter { s with type_filter := t }
  | .untranslatedToggled b => uiApplyFilter { s with show_untranslated := b }

/-- Methods `load_csv` (line 363) and `closeEvent` (line 458) offer the save
confirmation exactly when `self.can_save` holds. -/
def offersSaveConfirmation (s : EditorState) : Bool := s.can_save

/-- Table-model states reachable through the model's operations, starting
from a freshly loaded table. -/
inductive Reach : TableModel → Prop
  | init (rows : List Row) : Reach (TableModel.init rows)
  | filter {m : TableModel} (tf ff : String) (su : Bool) :
      Reach m → Reach (apply_filter m tf ff su)
  | edit {m : TableModel} (i : ℕ) (v : String) :
      Reach m → Reach (set_translation m i v)







/-- The inclusion conditions exactly as claim C1 states them (this follows
the claim's words — lowercase *equality* on the type — for comparison with
the code's `matchRow`, which tests *substring* containment instead). -/
abbrev specMatchC1 (tf ff : String) (su : Bool) (r : Row) : Prop :=
  (ff = "" ∨ strLower r.ftype = strLower ff) ∧
  (tf = "" ∨ strIn (strLower tf) (strLower r.source) = true ∨
    strIn (strLower tf) (strLower r.translation) = true) ∧
  (su = true → r.translation = "")

theorem toList_append (a b : String) : (a ++ b).toList = a.toList ++ b.toList := by
  cases a
  cases b
  rfl

theorem toList_eq_nil_iff (s : String) : s.toList = [] ↔ s = "" := by
  cases s with
  | mk d =>
    constructor
    · intro h
      simp only [String.toList] at h
      simp [h]
    · intro h
      rw [h]
      rfl

theorem strLower_eq_empty_iff (s : String) : strLower s = "" ↔ s = "" := by
  constructor
  · intro h
    have h2 : (strLower s).toList = [] := by rw [h]; rfl
    have h3 : s.toList.map Char.toLower = [] := h2
    exact (toList_eq_nil_iff s).mp (List.map_eq_nil_iff.mp h3)
  · intro h
    rw [h]
    rfl

theorem getD_set_self {α : Type _} (l : List α) (i : ℕ) (a d : α) (h : i < l.length) :
    (l.set i a).getD i d = a := by
  rw [List.getD_eq_getElem?_getD, List.getElem?_set_self h]
  rfl

theorem getD_set_ne {α : Type _} (l : List α) {i j : ℕ} (a d : α) (h : i ≠ j) :
    (l.set i a).getD j d = l.getD j d := by
  rw [List.getD_eq_getElem?_getD, List.getElem?_set_ne h, ← List.getD_eq_getElem?_getD]


/-- C1, counterexample: for the table with the single row
`("1", "ab", "s", "")` and the predicate `(text = "", type = "a",
untranslated_only = false)`, `apply_filter` *includes* the row (the code
tests `file_type_filter in file_type`, and `"a"` is a substring of `"ab"`),
yet the claim's three conditions do not all hold: the claimed type
condition (empty type or lowercase equality) is false.  So inclusion is not
equivalent to the claim's conditions. -/
theorem C1_counterexample :
    0 ∈ (apply_filter (TableModel.init [⟨"1", "ab", "s", ""⟩]) "" "a" false).filtered_data ∧
    ¬ specMatchC1 "" "a" false ⟨"1", "ab", "s", ""⟩ := by
  decide

/-- C1, amended: a row is included by `apply_filter` iff it belongs to the
table and (1) the lowercased type *filter is a substring of* the lowercased
row type (an empty filter trivially is), (2) the lowercased text filter is
a substring of the lowercased source or of the lowercased translation (an
empty filter trivially is), and (3) `untranslated_only` implies the
translation is empty; every excluded row of the table fails at least one of
these conditions. -/
theorem C1_filter_membership (m : TableModel) (tf ff : String) (su : Bool) (ref : ℕ) :
    ref ∈ (apply_filter m tf ff su).filtered_data ↔
      ref ∈ m.original_data ∧
      (su = true → (rowAt m ref).translation = "") ∧
      (strIn (strLower tf) (strLower (rowAt m ref).source) = true ∨
        strIn (strLower tf) (strLower (rowAt m ref).translation) = true) ∧
      strIn (strLower ff) (strLower (rowAt m ref).ftype) = true := by
  simp only [apply_filter, List.mem_filter, matchRow]
  cases su <;>
    simp [Bool.and_eq_true, Bool.or_eq_true, beq_iff_eq, strLower_eq_empty_iff,
      and_assoc]

/-- C2, counterexample: the loader accepts, without any error, input whose
single data row has 2 fields (≠ 4 = the header's field count), and also
accepts input with zero rows; the claim says both must fail with
`FormatError`. -/
theorem C2_counterexample :
    loaderRun [["file_index", "file_type", "source_language", "destination_language"],
        ["x", "y"]] = (HEADERS, [["x", "y"]]) ∧
    (["x", "y"] : List String).length ≠ 4 ∧
    loaderRun [] = (HEADERS, []) := by
  decide

/-- C2, amended: loading never fails.  `CSVLoaderThread.run` performs no
validation at all: for every parsed input it returns the `HEADERS` constant
together with all rows after the first, whatever their field counts, and
the returned rows are a sublist of the input. -/
theorem C2_loader_never_fails (data : List (List String)) :
    loaderRun data = (HEADERS, data.drop 1) ∧ ((loaderRun data).2).Sublist data :=
  ⟨rfl, List.drop_sublist 1 data⟩

/-- C4: evaluation at the failing input.  The table holds two rows with
equal values; editing the translation of the row at position 1 also
overwrites the translation of the row at position 0, because
`set_translation` locates the row to update with
`original_data.index(filtered_data[row])`, i.e. by *value* equality, which
finds the first duplicate.  The claim requires every other row to be left
entirely unchanged. -/
theorem C4_duplicate_row_mutation :
    rowAt (set_translation
      (TableModel.init [⟨"1", "Dialogue", "Hello", ""⟩, ⟨"1", "Dialogue", "Hello", ""⟩])
      1 "Привет") 0 = ⟨"1", "Dialogue", "Hello", "Привет"⟩ ∧
    rowAt (set_translation
      (TableModel.init [⟨"1", "Dialogue", "Hello", ""⟩, ⟨"1", "Dialogue", "Hello", ""⟩])
      1 "Привет") 1 = ⟨"1", "Dialogue", "Hello", "Привет"⟩ := by
  decide

/-- C6, counterexample: for a table of 100 rows of which 71 are
untranslated, `stats` reports 28 percent, while the claimed formula
`floor((total - untranslated) / total * 100)` gives 29.  The code computes
`int((100 - 71) / 100 * 100)` in binary64 floating point:
`29 / 100` rounds to `0.28999999999999998…`, multiplying by `100` rounds
to `28.999999999999996…`, and `int` truncates to 28. -/
theorem C6_counterexample :
    stats (TableModel.init
        (List.replicate 71 ⟨"i", "t", "s", ""⟩ ++ List.replicate 29 ⟨"i", "t", "s", "x"⟩)) =
      (100, 71, 28) ∧
    (100 - 71) * 100 / 100 = 29 := by
  decide

/-- C6, amended: `stats` is computed over the full table (never the
filtered view) and is identical regardless of any prior `apply_filter`
call; a zero-row table yields `(0, 0, 0)` with no division error; and the
percent is the binary64 evaluation of
`int((total - untranslated) / total * 100)` (`pythonPercent`), which can
differ from the exact floor formula (for example it is 28, not 29, at
`total = 100`, `untranslated = 71`). -/
theorem C6_stats_full_table (m : TableModel) (tf ff : String) (su : Bool) :
    stats (apply_filter m tf ff su) = stats m ∧
    stats (TableModel.init []) = (0, 0, 0) ∧
    stats m = (m.original_data.length,
      (m.original_data.filter (fun o => (rowAt m o).translation == "")).length,
      pythonPercent m.original_data.length
        ((m.original_data.filter (fun o => (rowAt m o).translation == "")).length)) :=
  ⟨rfl, by decide, rfl⟩

/-- C7: the filter result is an order-preserving sublist of the table (so
positions come in their original, strictly increasing order whenever the
table's reference list is sorted, as it is for every freshly loaded
table), and re-applying a filter after a single-row mutation recomputes the
result from the *current* table contents — the result is literally the
filter of the mutated table, with no cached state. -/
theorem C7_filter_fresh_ordered (m : TableModel) (tf ff : String) (su : Bool)
    (i : ℕ) (v : String) (hp : m.original_data.Pairwise (· < ·)) :
    ((apply_filter m tf ff su).filtered_data).Sublist m.original_data ∧
    ((apply_filter m tf ff su).filtered_data).Pairwise (· < ·) ∧
    (apply_filter (set_translation m i v) tf ff su).filtered_data =
      (set_translation m i v).original_data.filter (fun ref =>
        matchRow (strLower tf) (strLower ff) su (rowAt (set_translation m i v) ref)) :=
  ⟨List.filter_sublist _, List.Pairwise.sublist (List.filter_sublist _) hp, rfl⟩

/-- C7, witness at a concrete table and predicate. -/
theorem C7_filter_fresh_ordered_witness :
    ((apply_filter (TableModel.init [⟨"1", "Dialogue", "Hello", ""⟩]) "" "" true).filtered_data).Sublist
      (TableModel.init [⟨"1", "Dialogue", "Hello", ""⟩]).original_data ∧
    ((apply_filter (TableModel.init [⟨"1", "Dialogue", "Hello", ""⟩]) "" "" true).filtered_data).Pairwise (· < ·) ∧
    (apply_filter (set_translation (TableModel.init [⟨"1", "Dialogue", "Hello", ""⟩]) 0 "Привет") "" "" true).filtered_data =
      (set_translation (TableModel.init [⟨"1", "Dialogue", "Hello", ""⟩]) 0 "Привет").original_data.filter (fun ref =>
        matchRow (strLower "") (strLower "") true
          (rowAt (set_translation (TableModel.init [⟨"1", "Dialogue", "Hello", ""⟩]) 0 "Привет") ref)) :=
  C7_filter_fresh_ordered (TableModel.init [⟨"1", "Dialogue", "Hello", ""⟩]) "" "" true 0 "Привет"
    (by decide)

theorem uiApplyFilter_can_save (s : EditorState) : (uiApplyFilter s).can_save = s.can_save := by
  unfold uiApplyFilter
  cases s.model <;> rfl

/-- C9: the dirty flag `can_save` is a single boolean of the editor state;
in every state it is set (to `true`) exactly by an accepted edit dialog
(the commit of an edit), cleared (to `false`) exactly by a completed save
or a fresh load, and left untouched by every other event (a rejected
dialog, a failed save, and all three filter changes); and both
file-switching confirmations (`load_csv` and `closeEvent`) are offered
exactly when it holds. -/
theorem C9_dirty_flag (s : EditorState) (p : String) (rows : List Row) (i : ℕ)
    (txt t : String) (b : Bool)
    (hm : s.model.isSome = true) (hf : s.current_file.isSome = true) :
    (step s (.csvLoaded p rows)).can_save = false ∧
    (step s (.editAccepted i txt)).can_save = true ∧
    (step s .saveRequested).can_save = false ∧
    (step s .saveFailed).can_save = s.can_save ∧
    (step s .editRejected).can_save = s.can_save ∧
    (step s (.searchChanged t)).can_save = s.can_save ∧
    (step s (.typeChanged t)).can_save = s.can_save ∧
    (step s (.untranslatedToggled b)).can_save = s.can_save ∧
    offersSaveConfirmation s = s.can_save := by
  obtain ⟨m, hm'⟩ := Option.isSome_iff_exists.mp hm
  obtain ⟨f, hf'⟩ := Option.isSome_iff_exists.mp hf
  refine ⟨?_, ?_, ?_, rfl, rfl, ?_, ?_, ?_, rfl⟩ <;>
    simp [step, uiApplyFilter_can_save, hm', hf']

/-- C9, witness at a concrete dirty state with a loaded model and file. -/
theorem C9_dirty_flag_witness :
    (step ⟨true, some (TableModel.init []), some "a.csv", "", "ALL", false⟩
      (.csvLoaded "b.csv" [])).can_save = false ∧
    (step ⟨true, some (TableModel.init []), some "a.csv", "", "ALL", false⟩
      (.editAccepted 0 "x")).can_save = true ∧
    (step ⟨true, some (TableModel.init []), some "a.csv", "", "ALL", false⟩
      .saveRequested).can_save = false ∧
    (step ⟨true, some (TableModel.init []), some "a.csv", "", "ALL", false⟩
      .saveFailed).can_save = (⟨true, some (TableModel.init []), some "a.csv", "", "ALL", false⟩ : EditorState).can_save ∧
    (step ⟨true, some (TableModel.init []), some "a.csv", "", "ALL", false⟩
      .editRejected).can_save = (⟨true, some (TableModel.init []), some "a.csv", "", "ALL", false⟩ : EditorState).can_save ∧
    (step ⟨true, some (TableModel.init []), some "a.csv", "", "ALL", false⟩
      (.searchChanged "q")).can_save = (⟨true, some (TableModel.init []), some "a.csv", "", "ALL", false⟩ : EditorState).can_save ∧
    (step ⟨true, some (TableModel.init []), some "a.csv", "", "ALL", false⟩
      (.typeChanged "Dialogue")).can_save = (⟨true, some (TableModel.init []), some "a.csv", "", "ALL", false⟩ : EditorState).can_save ∧
    (step ⟨true, some (TableModel.init []), some "a.csv", "", "ALL", false⟩
      (.untranslatedToggled true)).can_save = (⟨true, some (TableModel.init []), some "a.csv", "", "ALL", false⟩ : EditorState).can_save ∧
    offersSaveConfirmation ⟨true, some (TableModel.init []), some "a.csv", "", "ALL", false⟩ =
      (⟨true, some (TableModel.init []), some "a.csv", "", "ALL", false⟩ : EditorState).can_save :=
  C9_dirty_flag ⟨true, some (TableModel.init []), some "a.csv", "", "ALL", false⟩
    "b.csv" [] 0 "x" "q" true (by decide) (by decide)

theorem reach_invariant (m : TableModel) (h : Reach m) :
    (∀ ref ∈ m.filtered_data, ref ∈ m.original_data) ∧
    (∀ ref ∈ m.original_data, ref < m.store.length) := by
  induction h with
  | init rows =>
    refine ⟨fun ref hr => hr, fun ref hr => ?_⟩
    simpa [TableModel.init] using List.mem_range.mp hr
  | filter tf ff su hm ih =>
    exact ⟨fun ref hr => (List.mem_filter.mp hr).1, ih.2⟩
  | edit i v hm ih =>
    refine ⟨ih.1, fun ref hr => ?_⟩
    have := ih.2 ref hr
    simpa [set_translation, List.length_set] using this

/-- C10: in every reachable model state, every position held by the
filtered view is a reference to a row object of the original table (the
view stores references, never copies), so editing a translation through a
valid filtered position updates that very row object of the full table:
`original_data` and the store size are untouched, and the addressed row's
value afterwards is its old value with only the translation replaced —
hence the edit is immediately visible to any subsequent full-table
computation such as `stats`. -/
theorem C10_view_aliasing (m : TableModel) (hm : Reach m) (i : ℕ)
    (hi : i < m.filtered_data.length) (v : String) :
    m.filtered_data.getD i 0 ∈ m.original_data ∧
    (set_translation m i v).original_data = m.original_data ∧
    (set_translation m i v).store.length = m.store.length ∧
    rowAt (set_translation m i v) (m.filtered_data.getD i 0) =
      { rowAt m (m.filtered_data.getD i 0) with translation := v } := by
  obtain ⟨hfo, hlen⟩ := reach_invariant m hm
  have hmem : m.filtered_data.getD i 0 ∈ m.original_data := by
    have hin : m.filtered_data.getD i 0 ∈ m.filtered_data := by
      rw [List.getD_eq_getElem _ _ hi]
      exact List.getElem_mem hi
    exact hfo _ hin
  have hrlen : m.filtered_data.getD i 0 < m.store.length := hlen _ hmem
  refine ⟨hmem, rfl, by simp [set_translation], ?_⟩
  have key : ∀ (st : List Row) (oref rref : ℕ), rref < st.length →
      ((st.set oref { st.getD oref default with translation := v }).set rref
        { (st.set oref { st.getD oref default with translation := v }).getD rref default with
          translation := v }).getD rref default
      = { st.getD rref default with translation := v } := by
    intro st oref rref hlt
    rw [getD_set_self _ _ _ _ (by simpa using hlt)]
    by_cases ho : oref = rref
    · subst ho
      rw [getD_set_self _ _ _ _ hlt]
    · rw [getD_set_ne _ _ _ ho]
  simpa [set_translation, rowAt] using key m.store _ _ hrlen

/-- C10, witness at a concrete reachable model and position. -/
theorem C10_view_aliasing_witness :
    (TableModel.init [⟨"1", "Dialogue", "Hello", ""⟩]).filtered_data.getD 0 0 ∈
      (TableModel.init [⟨"1", "Dialogue", "Hello", ""⟩]).original_data ∧
    (set_translation (TableModel.init [⟨"1", "Dialogue", "Hello", ""⟩]) 0 "Привет").original_data =
      (TableModel.init [⟨"1", "Dialogue", "Hello", ""⟩]).original_data ∧
    (set_translation (TableModel.init [⟨"1", "Dialogue", "Hello", ""⟩]) 0 "Привет").store.length =
      (TableModel.init [⟨"1", "Dialogue", "Hello", ""⟩]).store.length ∧
    rowAt (set_translation (TableModel.init [⟨"1", "Dialogue", "Hello", ""⟩]) 0 "Привет")
        ((TableModel.init [⟨"1", "Dialogue", "Hello", ""⟩]).filtered_data.getD 0 0) =
      { rowAt (TableModel.init [⟨"1", "Dialogue", "Hello", ""⟩])
          ((TableModel.init [⟨"1", "Dialogue", "Hello", ""⟩]).filtered_data.getD 0 0) with
        translation := "Привет" } :=
  C10_view_aliasing (TableModel.init [⟨"1", "Dialogue", "Hello", ""⟩])
    (Reach.init [⟨"1", "Dialogue", "Hello", ""⟩]) 0 (by decide) "Привет"

theorem toList_mk (l : List Char) : (String.mk l).toList = l := rfl

theorem isPrefixOf_eq_true_iff {α : Type _} [DecidableEq α] (l₁ l₂ : List α) :
    l₁.isPrefixOf l₂ = true ↔ l₁ <+: l₂ := by
  induction l₁ generalizing l₂ with
  | nil => simp [List.isPrefixOf]
  | cons a as ih =>
    cases l₂ with
    | nil => simp [List.isPrefixOf]
    | cons b bs => simp [List.isPrefixOf, List.cons_prefix_cons, ih, beq_iff_eq]

theorem isPrefixOf_nil_iff {α : Type _} [DecidableEq α] (l : List α) :
    l.isPrefixOf ([] : List α) = true ↔ l = [] := by
  cases l <;> simp [List.isPrefixOf]

theorem nil_isPrefixOf {α : Type _} [DecidableEq α] (l : List α) :
    ([] : List α).isPrefixOf l = true := by
  simp [List.isPrefixOf]

theorem ciMatchesAt_bound (pat text : List Char) (i : ℕ)
    (h : ciMatchesAt pat text i = true) : pat.length ≤ text.length - i := by
  unfold ciMatchesAt at h
  have hp := (isPrefixOf_eq_true_iff _ _).mp h
  have hl := hp.length_le
  simpa using hl

theorem indexInFrom_none_iff (pat text : List Char) (start : ℕ) (hne : pat ≠ []) :
    indexInFrom pat text start = none ↔
      ∀ i, start ≤ i → ciMatchesAt pat text i = false := by
  have hplen : 1 ≤ pat.length := by
    cases pat
    · exact absurd rfl hne
    · simp
  unfold indexInFrom
  rw [List.find?_eq_none]
  constructor
  · intro h i hsi
    by_contra hci
    have hci' : ciMatchesAt pat text i = true := by
      revert hci
      cases ciMatchesAt pat text i <;> simp
    have hbound := ciMatchesAt_bound pat text i hci'
    have hilen : i < text.length + 1 := by omega
    have := h i (List.mem_range.mpr hilen)
    simp [hsi, hci'] at this
  · intro h i hmem
    simp only [Bool.and_eq_true, decide_eq_true_eq, not_and]
    intro hsi
    simp [h i hsi]

theorem indexInFrom_some (pat text : List Char) (start i : ℕ)
    (h : indexInFrom pat text start = some i) :
    start ≤ i ∧ ciMatchesAt pat text i = true := by
  have := List.find?_some h
  simpa [Bool.and_eq_true, decide_eq_true_eq] using this

theorem highlightLoop_spec (term : String) (pat text : List Char) (hne : pat ≠ []) :
    ∀ (fuel start : ℕ) (acc : Finset String),
      text.length + 1 ≤ fuel + start → 1 ≤ fuel →
      ∃ res, highlightLoop term pat text fuel start acc = some res ∧
        ∀ x, x ∈ res ↔ x ∈ acc ∨
          (x = term ∧ ∃ i, start ≤ i ∧ ciMatchesAt pat text i = true) := by
  intro fuel
  induction fuel with
  | zero => intro start acc hb h1; omega
  | succ fuel ih =>
    intro start acc hb _
    have hplen : 1 ≤ pat.length := by
      cases pat
      · exact absurd rfl hne
      · simp
    cases hidx : indexInFrom pat text start with
    | none =>
      refine ⟨acc, by simp [highlightLoop, hidx], fun x => ?_⟩
      have hnone := (indexInFrom_none_iff pat text start hne).mp hidx
      constructor
      · exact Or.inl
      · rintro (hx | ⟨hxt, i, hsi, hci⟩)
        · exact hx
        · rw [hnone i hsi] at hci
          cases hci
    | some i =>
      obtain ⟨hsi, hci⟩ := indexInFrom_some pat text start i hidx
      have hbound := ciMatchesAt_bound pat text i hci
      have hle : i + pat.length ≤ text.length := by omega
      obtain ⟨res, hres, hmem⟩ :=
        ih (i + pat.length) (insert term acc) (by omega) (by omega)
      refine ⟨res, by simp [highlightLoop, hidx, hres], fun x => ?_⟩
      rw [hmem x]
      simp only [Finset.mem_insert]
      constructor
      · rintro ((hxt | hxa) | ⟨hxt, j, hsj, hcj⟩)
        · exact Or.inr ⟨hxt, i, hsi, hci⟩
        · exact Or.inl hxa
        · exact Or.inr ⟨hxt, j, by omega, hcj⟩
      · rintro (hxa | ⟨hxt, j, hsj, hcj⟩)
        · exact Or.inl (Or.inr hxa)
        · exact Or.inl (Or.inl hxt)

theorem highlightBlock_aux (text : List Char) :
    ∀ (gl : List (String × String)) (acc : Finset String),
      (∀ p ∈ gl, p.1 ≠ "") →
      ∃ S, List.foldlM
          (fun acc p => highlightLoop p.1 p.1.toList text (text.length + 2) 0 acc)
          acc gl = some S ∧
        ∀ x, x ∈ S ↔ x ∈ acc ∨
          ((∃ tr, (x, tr) ∈ gl) ∧ ∃ i, ciMatchesAt x.toList text i = true) := by
  intro gl
  induction gl with
  | nil =>
    intro acc _
    refine ⟨acc, rfl, fun x => ?_⟩
    simp
  | cons p gl ih =>
    intro acc h
    have hp1 : p.1 ≠ "" := h p (List.mem_cons_self p gl)
    have hpat : p.1.toList ≠ [] := fun hc => hp1 ((toList_eq_nil_iff p.1).mp hc)
    obtain ⟨res, hres, hmem⟩ :=
      highlightLoop_spec p.1 p.1.toList text hpat (text.length + 2) 0 acc
        (by omega) (by omega)
    obtain ⟨S, hS, hSmem⟩ := ih res (fun q hq => h q (List.mem_cons_of_mem _ hq))
    refine ⟨S, ?_, fun x => ?_⟩
    · rw [List.foldlM_cons, hres]
      simpa using hS
    · rw [hSmem x, hmem x]
      constructor
      · rintro ((hxa | ⟨hxt, i, _, hci⟩) | ⟨⟨tr, htr⟩, hoc⟩)
        · exact Or.inl hxa
        · subst hxt
          exact Or.inr ⟨⟨p.2, by simp⟩, i, hci⟩
        · exact Or.inr ⟨⟨tr, List.mem_cons_of_mem _ htr⟩, hoc⟩
      · rintro (hxa | ⟨⟨tr, htr⟩, i, hci⟩)
        · exact Or.inl (Or.inl hxa)
        · rcases List.mem_cons.mp htr with heq | hgl
          · have hx1 : x = p.1 := by rw [← heq]
            refine Or.inl (Or.inr ⟨hx1, i, Nat.zero_le i, ?_⟩)
            rw [← hx1]
            exact hci
          · exact Or.inr ⟨⟨tr, hgl⟩, i, hci⟩

theorem exists_ciMatchesAt_iff (a b : String) :
    (∃ i, ciMatchesAt a.toList b.toList i = true) ↔
      strIn (strLower a) (strLower b) = true := by
  unfold strIn strLower
  simp only [toList_mk, List.length_map]
  rw [List.any_eq_true]
  constructor
  · rintro ⟨i, hci⟩
    unfold ciMatchesAt at hci
    by_cases hi : i ≤ b.toList.length
    · refine ⟨i, List.mem_range.mpr (by omega), ?_⟩
      rw [← List.map_drop]
      exact hci
    · have hdrop : b.toList.drop i = [] := List.drop_eq_nil_of_le (by omega)
      rw [hdrop] at hci
      simp only [List.map_nil] at hci
      have ha : a.toList.map Char.toLower = [] := (isPrefixOf_nil_iff _).mp hci
      refine ⟨0, List.mem_range.mpr (by omega), ?_⟩
      rw [ha]
      exact nil_isPrefixOf _
  · rintro ⟨i, _, hpre⟩
    refine ⟨i, ?_⟩
    unfold ciMatchesAt
    rw [List.map_drop]
    exact hpre

/-- C3, counterexample: for the glossary `[("", "x")]` (producible by
`get_glossary` from the line `"-  - x"`) and the text `"a"`, the term `""`
is a case-insensitive substring of the text occurring once, so the claim
requires the result set `{""}`; but the highlighter's `while` loop never
advances (`matchedLength` is 0 for the empty pattern), never terminates,
and no result set is ever reported. -/
theorem C3_counterexample :
    scan [("", "x")] "a" = none ∧ strIn "" "a" = true := by decide

/-- C3, amended: for every glossary whose terms are nonempty (an empty term
makes the highlighter loop forever) and every text, the scan terminates and
reports exactly the glossary terms that occur case-insensitively as
substrings of the text — each such term exactly once (the result is a set),
regardless of how many times or how overlappingly it occurs; in particular
scanning "The Crest of Flames" against `[("Crest", "Герб")]` yields exactly
`{"Crest"}` (see the witness). -/
theorem C3_scan_characterization (glossary : List (String × String)) (text : String)
    (h : ∀ p ∈ glossary, p.1 ≠ "") :
    (scan glossary text).isSome = true ∧
    ∀ x, x ∈ (scan glossary text).getD ∅ ↔
      (∃ tr, (x, tr) ∈ glossary) ∧ strIn (strLower x) (strLower text) = true := by
  obtain ⟨S, hS, hmem⟩ := highlightBlock_aux text.toList glossary ∅ h
  have hscan : scan glossary text = some S := hS
  refine ⟨by rw [hscan]; rfl, fun x => ?_⟩
  rw [hscan]
  simp only [Option.getD_some]
  rw [hmem x]
  simp only [Finset.not_mem_empty, false_or]
  rw [exists_ciMatchesAt_iff]

/-- C3, witness: the spec's scenario. -/
theorem C3_scan_characterization_witness :
    (scan [("Crest", "Герб")] "The Crest of Flames").isSome = true ∧
    ∀ x, x ∈ (scan [("Crest", "Герб")] "The Crest of Flames").getD ∅ ↔
      (∃ tr, (x, tr) ∈ [("Crest", "Герб")]) ∧
        strIn (strLower x) (strLower "The Crest of Flames") = true :=
  C3_scan_characterization [("Crest", "Герб")] "The Crest of Flames" (by decide)

theorem mk_toList (s : String) : String.mk s.toList = s := rfl

theorem splitOnChar_cons (c x : Char) (xs : List Char) :
    splitOnChar c (x :: xs) =
      match splitOnChar c xs with
      | [] => [[]]
      | y :: ys => if x = c then [] :: y :: ys else (x :: y) :: ys := rfl

theorem splitOnChar_ne_nil (c : Char) (l : List Char) : splitOnChar c l ≠ [] := by
  cases l with
  | nil => simp [splitOnChar]
  | cons x xs =>
    rw [splitOnChar_cons]
    cases h : splitOnChar c xs with
    | nil => simp
    | cons y ys => by_cases hx : x = c <;> simp [hx]

theorem splitOnChar_not_mem (c : Char) (a : List Char) (h : c ∉ a) :
    splitOnChar c a = [a] := by
  induction a with
  | nil => rfl
  | cons x xs ih =>
    have hx : x ≠ c := fun hc => h (hc ▸ List.mem_cons_self x xs)
    have hxs : c ∉ xs := fun hc => h (List.mem_cons_of_mem _ hc)
    rw [splitOnChar_cons, ih hxs]
    simp [hx]

theorem splitOnChar_append (c : Char) (a b : List Char) (h : c ∉ a) :
    splitOnChar c (a ++ c :: b) = a :: splitOnChar c b := by
  induction a with
  | nil =>
    simp only [List.nil_append]
    rw [splitOnChar_cons]
    cases hb : splitOnChar c b with
    | nil => exact absurd hb (splitOnChar_ne_nil c b)
    | cons y ys => simp
  | cons x xs ih =>
    have hx : x ≠ c := fun hc => h (hc ▸ List.mem_cons_self x xs)
    have hxs : c ∉ xs := fun hc => h (List.mem_cons_of_mem _ hc)
    rw [List.cons_append, splitOnChar_cons, ih hxs]
    simp [hx]

theorem splitOnChar_joinSep (c : Char) (fs : List (List Char)) (hne : fs ≠ [])
    (h : ∀ f ∈ fs, c ∉ f) : splitOnChar c (joinSep [c] fs) = fs := by
  induction fs with
  | nil => exact absurd rfl hne
  | cons f gs ih =>
    cases gs with
    | nil =>
      rw [joinSep]
      exact splitOnChar_not_mem c f (h f (by simp))
    | cons g gs' =>
      rw [joinSep]
      have hestep : f ++ [c] ++ joinSep [c] (g :: gs') =
          f ++ c :: joinSep [c] (g :: gs') := by simp
      rw [hestep, splitOnChar_append c f _ (h f (by simp))]
      rw [ih (by simp) (fun q hq => h q (List.mem_cons_of_mem _ hq))]

theorem not_mem_joinSep (c c' : Char) (fs : List (List Char)) (hcc : c' ≠ c)
    (h : ∀ f ∈ fs, c' ∉ f) : c' ∉ joinSep [c] fs := by
  induction fs with
  | nil => simp [joinSep]
  | cons f gs ih =>
    cases gs with
    | nil =>
      rw [joinSep]
      exact h f (by simp)
    | cons g gs' =>
      rw [joinSep]
      intro hmem
      rcases List.mem_append.mp hmem with hmem | hmem
      · rcases List.mem_append.mp hmem with hmem | hmem
        · exact h f (by simp) hmem
        · simp at hmem
          exact hcc hmem
      · exact ih (fun q hq => h q (List.mem_cons_of_mem _ hq)) hmem

theorem stripCR_append_cr (l : List Char) : stripCR (l ++ ['\r']) = l := by
  have h : (l ++ ['\r']).reverse = '\r' :: l.reverse := by simp
  unfold stripCR
  rw [h]
  simp

theorem dropFinalEmpty_cons_cons (x y : List Char) (ys : List (List Char)) :
    dropFinalEmpty (x :: y :: ys) = x :: dropFinalEmpty (y :: ys) := by
  cases x <;> rfl

theorem plainStr_not_mem (f : String) (h : plainStr f = true) :
    ',' ∉ f.toList ∧ '"' ∉ f.toList ∧ '\r' ∉ f.toList ∧ '\n' ∉ f.toList := by
  unfold plainStr at h
  rw [List.all_eq_true] at h
  refine ⟨fun hc => ?_, fun hc => ?_, fun hc => ?_, fun hc => ?_⟩ <;>
    · have := h _ hc
      simp at this

theorem parse_serialize_chars : ∀ (rs : List (List String)),
    (∀ r ∈ rs, r ≠ []) → (∀ r ∈ rs, ∀ f ∈ r, plainStr f = true) →
    (dropFinalEmpty (splitOnChar '\n' ((rs.map writeRow).flatten))).map
      (fun l => (splitOnChar ',' (stripCR l)).map String.mk) = rs := by
  intro rs
  induction rs with
  | nil => intro _ _; rfl
  | cons r rs ih =>
    intro hne hp
    have hr : r ≠ [] := hne r (by simp)
    have hrp : ∀ f ∈ r, plainStr f = true := hp r (by simp)
    have hbody_comma : ∀ f ∈ r.map String.toList, ',' ∉ f := by
      intro f hf
      obtain ⟨g, hg, rfl⟩ := List.mem_map.mp hf
      exact (plainStr_not_mem g (hrp g hg)).1
    have hbody_nl : '\n' ∉ joinSep [','] (r.map String.toList) := by
      apply not_mem_joinSep _ _ _ (by decide)
      intro f hf
      obtain ⟨g, hg, rfl⟩ := List.mem_map.mp hf
      exact (plainStr_not_mem g (hrp g hg)).2.2.2
    have hnl : '\n' ∉ joinSep [','] (r.map String.toList) ++ ['\r'] := by
      intro hmem
      rcases List.mem_append.mp hmem with hmem | hmem
      · exact hbody_nl hmem
      · simp at hmem
    have hL : (((r :: rs).map writeRow).flatten) =
        (joinSep [','] (r.map String.toList) ++ ['\r']) ++
          '\n' :: ((rs.map writeRow).flatten) := by
      simp [writeRow, List.append_assoc]
    rw [hL, splitOnChar_append _ _ _ hnl]
    cases hsp : splitOnChar '\n' ((rs.map writeRow).flatten) with
    | nil => exact absurd hsp (splitOnChar_ne_nil _ _)
    | cons y ys =>
      rw [dropFinalEmpty_cons_cons, List.map_cons]
      have hline :
          (splitOnChar ',' (stripCR (joinSep [','] (r.map String.toList) ++ ['\r']))).map
            String.mk = r := by
        rw [stripCR_append_cr,
          splitOnChar_joinSep _ _ (by simpa using hr) hbody_comma, List.map_map]
        have hid : (String.mk ∘ String.toList) = id := funext fun s => mk_toList s
        rw [hid, List.map_id]
      rw [hline]
      have hrest := ih (fun q hq => hne q (List.mem_cons_of_mem _ hq))
        (fun q hq => hp q (List.mem_cons_of_mem _ hq))
      rw [hsp] at hrest
      rw [hrest]

/-- C5: round-trip.  For any table whose rows have the invariant 4 fields
and whose field values contain no delimiter-special character, saving,
re-loading the saved bytes, and saving again is the identity on the
serialized bytes: the re-load parses the saved content back to the header
row plus the original rows and discards whichever header row is present
(returning the fixed display `HEADERS` instead), and the second save emits
the fixed `RAW_HEADERS` row again, so the two serializations agree
byte-for-byte — the header substitution at the load/save boundary is the
only transformation that happens at all. -/
theorem C5_roundtrip (rows : List (List String))
    (h4 : ∀ r ∈ rows, r.length = 4)
    (hp : ∀ r ∈ rows, ∀ f ∈ r, plainStr f = true) :
    loaderRun (parseCsv (serializeRows rows)) = (HEADERS, rows) ∧
    serializeRows ((loaderRun (parseCsv (serializeRows rows))).2) =
      serializeRows rows := by
  have hparse : parseCsv (serializeRows rows) = RAW_HEADERS :: rows := by
    unfold serializeRows parseCsv
    rw [toList_mk]
    apply parse_serialize_chars (RAW_HEADERS :: rows)
    · intro r hr
      rcases List.mem_cons.mp hr with hr | hr
      · intro hc
        rw [hr] at hc
        exact absurd hc (by decide)
      · intro hc
        have hlen := h4 r hr
        rw [hc] at hlen
        simp at hlen
    · intro r hr
      rcases List.mem_cons.mp hr with hr | hr
      · subst hr
        intro f hf
        have hall : ∀ g ∈ RAW_HEADERS, plainStr g = true := by decide
        exact hall f hf
      · exact hp r hr
  refine ⟨by rw [hparse]; rfl, by rw [hparse]; rfl⟩

/-- C5, witness at a concrete one-row table. -/
theorem C5_roundtrip_witness :
    loaderRun (parseCsv (serializeRows [["1", "Dialogue", "Hello", "Привет"]])) =
      (HEADERS, [["1", "Dialogue", "Hello", "Привет"]]) ∧
    serializeRows ((loaderRun (parseCsv (serializeRows [["1", "Dialogue", "Hello", "Привет"]]))).2) =
      serializeRows [["1", "Dialogue", "Hello", "Привет"]] :=
  C5_roundtrip [["1", "Dialogue", "Hello", "Привет"]] (by decide) (by decide)

theorem splitFirstSep_cons (c : Char) (rest : List Char) :
    splitFirstSep (c :: rest) =
      if c = ' ' ∧ rest.take 2 = ['-', ' '] then some ([], rest.drop 2)
      else (splitFirstSep rest).map (fun p => (c :: p.1, p.2)) := rfl

theorem splitFirstSep_append (a b : List Char)
    (h : splitFirstSep (a ++ [' ', '-']) = none) :
    splitFirstSep (a ++ ' ' :: '-' :: ' ' :: b) = some (a, b) := by
  induction a with
  | nil =>
    rw [List.nil_append, splitFirstSep_cons, if_pos ⟨rfl, by simp⟩]
    simp
  | cons x a ih =>
    have h' : splitFirstSep (a ++ [' ', '-']) = none := by
      rw [List.cons_append, splitFirstSep_cons] at h
      by_cases hC : x = ' ' ∧ (a ++ [' ', '-']).take 2 = ['-', ' ']
      · rw [if_pos hC] at h
        cases h
      · rw [if_neg hC] at h
        exact Option.map_eq_none'.mp h
    have hC : ¬(x = ' ' ∧ (a ++ ' ' :: '-' :: ' ' :: b).take 2 = ['-', ' ']) := by
      rintro ⟨hx1, hx2⟩
      cases a with
      | nil =>
        rw [List.nil_append] at hx2
        simp at hx2
      | cons y a' =>
        cases a' with
        | nil =>
          simp at hx2
          subst hx1
          subst hx2
          exact absurd h (by decide)
        | cons z a'' =>
          simp at hx2
          obtain ⟨hy, hz⟩ := hx2
          subst hx1
          subst hy
          subst hz
          rw [List.cons_append, splitFirstSep_cons, if_pos ⟨rfl, by simp⟩] at h
          cases h
    rw [List.cons_append, splitFirstSep_cons, if_neg hC, ih h']
    rfl

theorem parseGlossaryLine_eq (l : List Char) :
    parseGlossaryLine (String.mk ('-' :: ' ' :: l)) =
      match splitFirstSep l with
      | some p => some (String.mk p.1, String.mk (stripEmph p.2))
      | none => none := rfl

/-- C8: glossary parsing.  (1) Every stripped line of the form
`- <term> - <rest>` — with the term containing no earlier separator
occurrence — parses to the pair of the term and `<rest>` with up to two
emphasis asterisks stripped from each side (`stripEmph` is the exact
effect of `\*{0,2}(.*?)\*{0,2}$`); (2) a line that does not match the
pattern is silently skipped, contributing nothing to the result; (3) the
glossary is an ordered sequence: parsing is per line, in file order
(`get_glossary` is a homomorphism for concatenation of line lists).  The
per-line processing never fails; only the surrounding file read can. -/
theorem C8_glossary_parse (t r l : String) (lines : List String)
    (ht : splitFirstSep (t.toList ++ [' ', '-']) = none)
    (hl : parseGlossaryLine (pyStrip l) = none) :
    parseGlossaryLine ("- " ++ t ++ " - " ++ r) =
      some (t, String.mk (stripEmph r.toList)) ∧
    get_glossary (l :: lines) = get_glossary lines ∧
    ∀ xs ys : List String, get_glossary (xs ++ ys) = get_glossary xs ++ get_glossary ys := by
  refine ⟨?_, ?_, ?_⟩
  · have h1 : "- ".toList = ['-', ' '] := rfl
    have h2 : " - ".toList = [' ', '-', ' '] := rfl
    have hlist : ("- " ++ t ++ " - " ++ r).toList =
        '-' :: ' ' :: (t.toList ++ ' ' :: '-' :: ' ' :: r.toList) := by
      rw [toList_append, toList_append, toList_append, h1, h2]
      simp
    have hs : ("- " ++ t ++ " - " ++ r) =
        String.mk ('-' :: ' ' :: (t.toList ++ ' ' :: '-' :: ' ' :: r.toList)) := by
      rw [← hlist, mk_toList]
    rw [hs, parseGlossaryLine_eq, splitFirstSep_append _ _ ht]
    rfl
  · simp [get_glossary, hl]
  · intro xs ys
    unfold get_glossary
    exact List.filterMap_append xs ys _

/-- C8, witness: the header line `"# Glossary"` is skipped, and the line
`- Crest - **Герб**` parses to `("Crest", "Герб")` with the emphasis
asterisks stripped. -/
theorem C8_glossary_parse_witness :
    parseGlossaryLine ("- " ++ "Crest" ++ " - " ++ "**Герб**") =
      some ("Crest", String.mk (stripEmph "**Герб**".toList)) ∧
    get_glossary ("# Glossary" :: ["- Crest - **Герб**"]) =
      get_glossary ["- Crest - **Герб**"] ∧
    ∀ xs ys : List String, get_glossary (xs ++ ys) = get_glossary xs ++ get_glossary ys :=
  C8_glossary_parse "Crest" "**Герб**" "# Glossary" ["- Crest - **Герб**"]
    (by decide) (by decide)
